import Mathlib

set_option maxRecDepth 8000

/-!
Shallow embedding of the httx router (a fork of fasthttp/router adapted to
net/http handlers): the pattern compiler (`getOptionalPaths`), registration
(`Mux.Handle`), the allowed-methods computation (`Mux.allowed`), dispatch
(`Mux.ServeHTTP` with `Mux.tryRedirect`), and mounting (`Mux.Merge`).

Go strings are modelled as `List Char` (the byte strings involved are ASCII).
Go's `http.ResponseWriter` side effects are modelled as an output event list
(`List Nat`); a handler returning a non-nil `error` is modelled as
`Option Nat`.
-/

/-- A request path / pattern, modelling a Go string ([]byte view). -/
abbrev RPath := List Char

/-- Go subslice `p[a:b]`. -/
def goSlice (p : RPath) (a b : Nat) : RPath := (p.drop a).take (b - a)

/-- An http.Request: method, URL path, raw query string and the per-request
path-value store written by `SetPathValue` during matching. -/
structure GoReq where
  method : String
  path : RPath
  rawQuery : RPath
  pathValues : List (RPath × RPath)
deriving DecidableEq

/-- Result of running an httx handler: the response events it wrote and the
`error` it returned (`none` models a nil error). -/
structure HResult where
  events : List Nat
  err : Option Nat
deriving DecidableEq

/-- httx.HandlerFunc: `func(http.ResponseWriter, *http.Request) error`. -/
abbrev HandlerFunc := GoReq → HResult

/-- DefaultErrorHandler writes the error text with status 500
(`http.Error(w, err.Error(), 500)`): modelled as the events `[500, e]`. -/
def DefaultErrorHandler (_ : GoReq) (e : Nat) : List Nat := [500, e]

/-- An `http.Handler` value as stored in a radix tree, tagged by its dynamic
Go type.  `Mux.Handle` always stores a `std` value (an `http.HandlerFunc`
closure); nothing in the repository ever stores an httx `HandlerFunc`
(`hfun`) in a tree, but the tag is needed because `Mux.Merge` type-switches
on exactly that dynamic type. -/
inductive HttpHandler where
  | std (f : GoReq → List Nat)
  | hfun (f : HandlerFunc)

/-- `ServeHTTP` of a stored handler.  An httx `HandlerFunc` used directly as
an `http.Handler` routes a non-nil error to `DefaultErrorHandler`
(part_003 lines 33-37). -/
def HttpHandler.run : HttpHandler → GoReq → List Nat
  | .std f, r => f r
  | .hfun f, r =>
    let res := f r
    res.events ++ (match res.err with
      | some e => DefaultErrorHandler r e
      | none => [])

/-- The route ledger type of a tree: inserted (pattern, handler) pairs. -/
abbrev Routes := List (RPath × HttpHandler)

/-!
## Pattern compiler: `getOptionalPaths` (part_003, lines 432-496)

The Go function scans the pattern for `{...}` parameters carrying an optional
marker `?` (not counted when it appears after `:`, i.e. inside a regex
constraint), emitting a truncated pattern at each marker and a resolved
pattern (marker removed) at the parameter's closing brace.  The inner
`for end, c := range []byte(path[start:])` loop iterates over a snapshot of
the current path suffix; `path` itself is only reassigned in the
closing-brace branch, which immediately restarts the outer loop.
-/

/-- Result of one run of the inner scanning loop of `getOptionalPaths`:
either `continue walk` with updated mutable state, or the snapshot was
exhausted and control falls back to the outer loop. -/
inductive InnerOut where
  | walk (path : RPath) (start : Nat) (paths : List RPath)
  | done (paths : List RPath)

/-- The inner loop of `getOptionalPaths`: `path` and `start` are the Go
variables at loop entry (both constant during the scan), the remaining
arguments are the loop-local mutables (`end`, `newPath`, `hasRegex`,
`questionMarkIndex`, `brackets`) and the accumulated `paths`. -/
def innerScan (path : RPath) (start : Nat) :
    List Char → Nat → RPath → Bool → Option Nat → Nat → List RPath → InnerOut
  | [], _, _, _, _, _, paths => .done paths
  | c :: rest, endIdx, newPath, hasRegex, qmi, brackets, paths =>
    if c = '{' then
      innerScan path start rest (endIdx+1) newPath hasRegex qmi (brackets+1) paths
    else if c = '}' then
      if 0 < brackets then
        innerScan path start rest (endIdx+1) newPath hasRegex qmi (brackets-1) paths
      else
        match qmi with
        | none => .walk path start paths
        | some q =>
          let e := endIdx + 1
          let newPath2 := newPath ++ goSlice path (q+1) (start+e)
          let path2 := path.take q ++ path.drop (q+1)
          .walk path2 (start + e - 1) (paths ++ [newPath2])
    else if c = ':' then
      innerScan path start rest (endIdx+1) newPath true qmi brackets paths
    else if c = '?' then
      if hasRegex then
        innerScan path start rest (endIdx+1) newPath hasRegex qmi brackets paths
      else
        let q := start + endIdx
        let newPath2 := newPath ++ path.take q
        let trunc := path.take (start - 2)
        let paths2 :=
          if trunc.length = 0 then paths ++ [['/']]
          else if trunc ∈ paths then paths
          else paths ++ [trunc]
        innerScan path start rest (endIdx+1) newPath2 hasRegex (some q) brackets paths2
    else
      innerScan path start rest (endIdx+1) newPath hasRegex qmi brackets paths

/-- The outer `walk` loop of `getOptionalPaths`.  Fuel bounds the number of
outer iterations; `start` strictly increases each iteration while the path
never grows, so `path.length + 1` initial fuel always suffices. -/
def goptWalk : Nat → RPath → Nat → List RPath → List RPath
  | 0, _, _, paths => paths
  | fuel+1, path, start, paths =>
    if path.length ≤ start then paths
    else
      let c := path.getD start ' '
      if c = '{' then
        match innerScan path (start+1) (path.drop (start+1)) 0 [] false none 0 paths with
        | .walk p2 s2 ps2 => goptWalk fuel p2 s2 ps2
        | .done ps2 => goptWalk fuel path (start+1) ps2
      else goptWalk fuel path (start+1) paths

/-- getOptionalPaths returns all possible paths when the original path has
optional arguments (part_003, lines 430-496). -/
def getOptionalPaths (path : RPath) : List RPath :=
  goptWalk (path.length + 1) path 0 []

/-!
## Radix tree (spec-modelled)

The radix `node` implementation (`add`, `getFromChild`, `find`, `split`,
`sort`) of the `radix` package is not under `src/`; only `tree.go` /
`types.go` wrappers and the callers are.  Modelled from the spec:
a `Tree` is the ledger of inserted concrete (pattern, handler) pairs
(§4.2: `Add` inserts one concrete pattern; duplicate/mutable replacement
semantics are not exercised by any claim and are not modelled), and `Get`
resolves a path against each registered pattern by the matching rules of
§4.3: literal text must match exactly, a `{name}` parameter captures one
non-empty path segment (text up to the next separator), a `{name:re}`
parameter additionally validates its constraint, and a `{name:*}` wildcard
captures the entire remainder.  A trailing-slash (TSR) recommendation is
made when a handler exists one separator away (§4.3), and
`FindCaseInsensitivePath` (§4.4) repeats the descent comparing literals
case-insensitively while rebuilding the case-corrected path from the
pattern's own literals (captures copied verbatim).
-/

/-- One element of a compiled pattern: a literal run or a `{name}` /
`{name:re}` parameter. -/
inductive Tok where
  | lit (s : RPath)
  | par (name : RPath) (re : Option RPath)
deriving DecidableEq

/-- Split off the literal run before the next parameter delimiter. -/
def takeLit : RPath → RPath × RPath
  | [] => ([], [])
  | c :: rest =>
    if c = '{' then ([], c :: rest)
    else
      let lr := takeLit rest
      (c :: lr.1, lr.2)

/-- Consume a parameter body up to its matching closing brace
(depth-tracking nested braces inside regex constraints). -/
def takeParam : RPath → Nat → RPath × RPath
  | [], _ => ([], [])
  | c :: rest, depth =>
    if c = '}' then
      if depth = 0 then ([], rest)
      else
        let br := takeParam rest (depth - 1)
        (c :: br.1, br.2)
    else if c = '{' then
      let br := takeParam rest (depth + 1)
      (c :: br.1, br.2)
    else
      let br := takeParam rest depth
      (c :: br.1, br.2)

/-- Compile a concrete pattern into tokens.  Fuel is the pattern length,
which suffices since every step consumes at least the `{` delimiter. -/
def toksOf : Nat → RPath → List Tok
  | 0, _ => []
  | _, [] => []
  | fuel+1, cs =>
    let lr := takeLit cs
    match lr.2 with
    | [] => if lr.1 = [] then [] else [Tok.lit lr.1]
    | _ :: afterBrace =>
      let bp := takeParam afterBrace 0
      let name := bp.1.takeWhile (fun c => c ≠ ':')
      let re :=
        if bp.1.any (fun c => c = ':') then
          some ((bp.1.dropWhile (fun c => c ≠ ':')).drop 1)
        else none
      (if lr.1 = [] then [] else [Tok.lit lr.1]) ++ Tok.par name re :: toksOf fuel bp.2

/-- Modelled from the spec: the regex engine is Go's external `regexp`
package.  Only the constraint forms exercised here are given semantics:
`.*` accepts any segment, and any other constraint is treated as a literal.
No claim's truth depends on richer regex semantics. -/
def reOK (re : Option RPath) (seg : RPath) : Bool :=
  match re with
  | none => true
  | some r => if r = ".*".data then true else decide (r = seg)

/-- Strip a literal token off the front of the path (byte-exact). -/
def stripLit : RPath → RPath → Option RPath
  | [], p => some p
  | _ :: _, [] => none
  | a :: as, b :: bs => if a = b then stripLit as bs else none

/-- Match a token sequence against a path, accumulating path-value captures
(§4.3 lookup). -/
def matchToks : List Tok → RPath → List (RPath × RPath) → Option (List (RPath × RPath))
  | [], p, caps => if p = [] then some caps else none
  | .lit s :: rest, p, caps =>
    match stripLit s p with
    | some p2 => matchToks rest p2 caps
    | none => none
  | .par name re :: rest, p, caps =>
    if re = some ['*'] then some (caps ++ [(name, p)])
    else
      let seg := p.takeWhile (fun c => c ≠ '/')
      if seg = [] then none
      else if reOK re seg then matchToks rest (p.drop seg.length) (caps ++ [(name, seg)])
      else none

/-- First registered pattern matching the path (§4.3). -/
def firstMatch : List (RPath × HttpHandler) → RPath → Option (HttpHandler × List (RPath × RPath))
  | [], _ => none
  | (pat, h) :: rest, p =>
    match matchToks (toksOf pat.length pat) p [] with
    | some caps => some (h, caps)
    | none => firstMatch rest p

/-- `RTree` models radix.Tree, a routes storage (radix/types.go; named RTree as Tree exists in the ambient library): one per HTTP method, with the
mutable flag fixed at creation.  Spec-modelled as the ledger of inserted
concrete patterns (see section comment). -/
structure RTree where
  Mutable : Bool
  routes : List (RPath × HttpHandler)

/-- radix.New(). -/
def RTree.New (mtb : Bool) : RTree := { Mutable := mtb, routes := [] }

/-- Tree.Add: insert one concrete pattern with its handler (ledger model). -/
def RTree.Add (t : RTree) (p : RPath) (h : HttpHandler) : RTree :=
  { t with routes := t.routes ++ [(p, h)] }

/-- Exact-match lookup (no TSR). -/
def RTree.lookup (t : RTree) (p : RPath) : Option (HttpHandler × List (RPath × RPath)) :=
  firstMatch t.routes p

/-- The path one separator away: drop a trailing slash, or append one. -/
def tsrAlt (p : RPath) : RPath :=
  if p.getLast? = some '/' ∧ 1 < p.length then p.dropLast else p ++ ['/']

/-- Tree.Get: the handler for the path plus captured values, or a TSR
recommendation when a handler exists one separator away. -/
def RTree.Get (t : RTree) (p : RPath) : Option (HttpHandler × List (RPath × RPath)) × Bool :=
  match t.lookup p with
  | some r => (some r, false)
  | none => (none, (t.lookup (tsrAlt p)).isSome)

/-- Case-insensitive literal strip. -/
def ciStripLit : RPath → RPath → Option RPath
  | [], p => some p
  | _ :: _, [] => none
  | a :: as, b :: bs => if a.toLower = b.toLower then ciStripLit as bs else none

/-- Case-insensitive descent rebuilding the corrected path: literals are
emitted with the pattern's casing, captures verbatim (§4.4). -/
def ciMatchToks : List Tok → RPath → RPath → Option RPath
  | [], p, acc => if p = [] then some acc else none
  | .lit s :: rest, p, acc =>
    match ciStripLit s p with
    | some p2 => ciMatchToks rest p2 (acc ++ s)
    | none => none
  | .par _ re :: rest, p, acc =>
    if re = some ['*'] then some (acc ++ p)
    else
      let seg := p.takeWhile (fun c => c ≠ '/')
      if seg = [] then none
      else if reOK re seg then ciMatchToks rest (p.drop seg.length) (acc ++ seg)
      else none

/-- First registered pattern matching case-insensitively. -/
def ciFirst : List (RPath × HttpHandler) → RPath → Option RPath
  | [], _ => none
  | (pat, _) :: rest, p =>
    match ciMatchToks (toksOf pat.length pat) p [] with
    | some out => some out
    | none => ciFirst rest p

/-- Tree.FindCaseInsensitivePath: case-insensitive lookup returning the
case-corrected path, optionally also fixing a trailing slash. -/
def RTree.FindCaseInsensitivePath (t : RTree) (p : RPath) (fixTrailingSlash : Bool) :
    Option RPath :=
  match ciFirst t.routes p with
  | some out => some out
  | none =>
    if fixTrailingSlash then ciFirst t.routes (tsrAlt p)
    else none

/-!
## Method ledger and allowed-methods sorting

`registeredPaths` is a Go `map[string][]string`; it is modelled as an
association list keyed by method, keys in first-registration order.  Go map
iteration order is unspecified, but every consumer whose result a claim
depends on either reads a single key or sorts the collected methods, so the
modelled order is immaterial to the stated properties.  The sort models the
in-place insertion sort of `Mux.allowed` (part_003, lines 415-422), which
orders method names by Go's byte-wise lexicographic `<` on strings.
-/

/-- Association-list lookup for the custom-method index map. -/
def assocFind : List (String × Nat) → String → Option Nat
  | [], _ => none
  | (k, v) :: rest, key => if k = key then some v else assocFind rest key

/-- `m.registeredPaths[method] = append(m.registeredPaths[method], path)`. -/
def ledgerAppend : List (String × List RPath) → String → RPath → List (String × List RPath)
  | [], me, p => [(me, [p])]
  | (k, v) :: rest, me, p =>
    if k = me then (k, v ++ [p]) :: rest else (k, v) :: ledgerAppend rest me p

/-- Byte-wise lexicographic `≤` on byte sequences, as Go compares strings. -/
def natListLe : List Nat → List Nat → Bool
  | [], _ => true
  | _ :: _, [] => false
  | a :: as, b :: bs => if a = b then natListLe as bs else decide (a < b)

/-- Go's `s < t` / `s ≤ t` on strings: lexicographic on bytes. -/
def strLeB (a b : String) : Bool :=
  natListLe (a.data.map Char.toNat) (b.data.map Char.toNat)

/-- The insertion sort at the end of `Mux.allowed`. -/
def sortAllowed (l : List String) : List String :=
  List.insertionSort (fun a b => strLeB a b = true) l

/-- Shared tail of `Mux.allowed`: if any methods were collected, append
OPTIONS and sort; otherwise return the empty list. -/
def finishAllowed (collected : List String) : List String :=
  if collected = [] then [] else sortAllowed (collected ++ ["OPTIONS"])

/-- The methods iterated for a server-wide query: every registered method
except OPTIONS. -/
def allowedStarKeys (rp : List (String × List RPath)) : List String :=
  (rp.map Prod.fst).filter (fun me => decide (me ≠ "OPTIONS"))

/-!
## The Mux (part_003, lines 39-115)

`OnPanic` is carried for completeness but never fires: handlers in this pure
embedding cannot panic, and no claim concerns panic recovery.
-/

/-- Default OnMethodNotAllowed: `w.WriteHeader(405)`. -/
def DefaultOnMethodNotAllowed (_ : GoReq) : List Nat := [405]

/-- Default OnNotFound: `w.WriteHeader(404)`. -/
def DefaultOnNotFound (_ : GoReq) : List Nat := [404]

/-- Default OnPanic: log and `w.WriteHeader(500)`. -/
def DefaultOnPanic (_ : GoReq) (_ : Nat) : List Nat := [500]

/-- The router (type Mux struct). -/
structure Mux where
  OnError : GoReq → Nat → List Nat
  OnMethodNotAllowed : Option (GoReq → List Nat)
  OnNotFound : GoReq → List Nat
  OnPanic : Option (GoReq → Nat → List Nat)
  GlobalOPTIONS : Option (GoReq → List Nat)
  mw : List (HandlerFunc → HandlerFunc)
  trees : List (Option RTree)
  customMethodsIndex : List (String × Nat)
  registeredPaths : List (String × List RPath)
  globalAllowed : List String
  treeMutable : Bool
  RedirectTrailingSlash : Bool
  RedirectFixedPath : Bool

/-- NewMux(): ten fixed tree slots, redirects enabled, default handlers. -/
def NewMux : Mux :=
  { OnError := DefaultErrorHandler
    OnMethodNotAllowed := some DefaultOnMethodNotAllowed
    OnNotFound := DefaultOnNotFound
    OnPanic := some DefaultOnPanic
    GlobalOPTIONS := none
    mw := []
    trees := List.replicate 10 none
    customMethodsIndex := []
    registeredPaths := []
    globalAllowed := []
    treeMutable := false
    RedirectTrailingSlash := true
    RedirectFixedPath := true }

/-- methodIndexOf: fixed slots 0-9 for the nine standard methods and the
wild method `*`, then the custom-method map; `none` models `-1`. -/
def methodIndexOfCore (cmi : List (String × Nat)) (method : String) : Option Nat :=
  if method = "GET" then some 0
  else if method = "HEAD" then some 1
  else if method = "POST" then some 2
  else if method = "PUT" then some 3
  else if method = "PATCH" then some 4
  else if method = "DELETE" then some 5
  else if method = "CONNECT" then some 6
  else if method = "OPTIONS" then some 7
  else if method = "TRACE" then some 8
  else if method = "*" then some 9
  else assocFind cmi method

/-- `m.methodIndexOf(method)`; depends only on the custom-method map. -/
def Mux.methodIndexOf (m : Mux) (method : String) : Option Nat :=
  methodIndexOfCore m.customMethodsIndex method

/-- `m.trees[m.methodIndexOf(method)]`, totalized: a missing slot or nil
tree is `none` (states in which Go would fault are collapsed to "no tree"). -/
def Mux.treeAt (m : Mux) (method : String) : Option RTree :=
  match m.methodIndexOf method with
  | some i => m.trees.getD i none
  | none => none

/-- The probe of `Mux.allowed` for a specific path: whether the method's
tree yields a handler at exactly this path (no redirect fallback). -/
def Mux.probe (m : Mux) (method : String) (p : RPath) : Bool :=
  match m.treeAt method with
  | some t => (t.lookup p).isSome
  | none => false

/-- Mux.allowed (part_003, lines 380-428). -/
def Mux.allowed (m : Mux) (path : RPath) (reqMethod : String) : List String :=
  if path = "*".data ∨ path = "/*".data then
    if reqMethod = "" then finishAllowed (allowedStarKeys m.registeredPaths)
    else m.globalAllowed
  else
    finishAllowed ((m.registeredPaths.map Prod.fst).filter
      (fun me => decide (me ≠ reqMethod) && decide (me ≠ "OPTIONS") && m.probe me path))

/-!
## Registration (part_003, lines 325-378) and dispatch (lines 169-274)
-/

/-- `for _, mw := range m.mw { handler = mw(handler) }`. -/
def wrapMw (mws : List (HandlerFunc → HandlerFunc)) (h : HandlerFunc) : HandlerFunc :=
  mws.foldl (fun acc f => f acc) h

/-- The `stdHandler` closure built by Handle: run the (wrapped) handler and
route a non-nil error to the error sink captured at registration time. -/
def mkStd (h : HandlerFunc) (onerr : GoReq → Nat → List Nat) : GoReq → List Nat :=
  fun r =>
    let res := h r
    res.events ++ (match res.err with
      | some e => onerr r e
      | none => [])

/-- The concrete patterns Handle inserts: the expansion when the pattern has
optional parameters, otherwise the original pattern (lines 368-377). -/
def expandPaths (p : RPath) : List RPath :=
  let ops := getOptionalPaths p
  if ops = [] then [p] else ops

/-- Insert every expanded pattern with the same handler. -/
def addAll (t : RTree) (ps : List RPath) (h : HttpHandler) : RTree :=
  ps.foldl (fun tt q => tt.Add q h) t

/-- Mux.Handle.  Panics are modelled as `Except.error`; a nil handler as
`none`.  Branches mirror the source: validation, ledger append, method
index (appending a fresh tree for a new custom method), nil-slot tree
creation with the `globalAllowed` cache refresh, middleware wrapping and
error-sink capture, then insertion of every expanded pattern. -/
def Mux.Handle (m : Mux) (method : String) (path : RPath) (handler : Option HandlerFunc) :
    Except String Mux :=
  if method = "" then .error "method must not be empty"
  else
    match handler with
    | none => .error "handler must not be nil"
    | some h =>
      if path = [] ∨ path.head? ≠ some '/' then
        .error "path must begin with root"
      else
        let rp := ledgerAppend m.registeredPaths method path
        let std : HttpHandler := .std (mkStd (wrapMw m.mw h) m.OnError)
        match m.methodIndexOf method with
        | some idx =>
          match m.trees.getD idx none with
          | some t =>
            .ok { m with registeredPaths := rp,
                         trees := m.trees.set idx (some (addAll t (expandPaths path) std)) }
          | none =>
            let mMid : Mux :=
              { m with registeredPaths := rp,
                       trees := m.trees.set idx (some (RTree.New m.treeMutable)) }
            .ok { mMid with
                  globalAllowed := mMid.allowed "*".data "",
                  trees := mMid.trees.set idx
                    (some (addAll (RTree.New m.treeMutable) (expandPaths path) std)) }
        | none =>
          .ok { m with
                registeredPaths := rp,
                trees := m.trees ++
                  [some (addAll (RTree.New m.treeMutable) (expandPaths path) std)],
                customMethodsIndex := m.customMethodsIndex ++ [(method, m.trees.length)] }

/-- Mux.Pre: append middleware (lines 107-110). -/
def Mux.Pre (m : Mux) (mws : List (HandlerFunc → HandlerFunc)) : Mux :=
  { m with mw := m.mw ++ mws }

/-- Mux.List: all registered routes grouped by method (lines 112-115). -/
def Mux.List (m : Mux) : List (String × List RPath) := m.registeredPaths

/-- The trailing-slash correction of `tryRedirect` (lines 233-238). -/
def tsFix (path : RPath) : RPath :=
  if 1 < path.length ∧ path.getLast? = some '/' then path.dropLast else path ++ ['/']

/-- `?` plus the raw query, when one is present (lines 240-243, 261-264). -/
def querySuffix (q : RPath) : RPath := if q = [] then [] else '?' :: q

/-- `strings.TrimSuffix(r.URL.Path, ".")` (line 255). -/
def trimDot (p : RPath) : RPath := if p.getLast? = some '.' then p.dropLast else p

/-- Mux.tryRedirect (lines 222-274): 301 for GET, 308 otherwise;
trailing-slash correction first (when recommended and enabled), then the
case-insensitive fixed-path correction (when enabled). -/
def Mux.tryRedirect (m : Mux) (t : RTree) (tsr : Bool) (method : String) (path q : RPath) :
    Option (Nat × RPath) :=
  let code := if method = "GET" then 301 else 308
  if tsr && m.RedirectTrailingSlash then
    some (code, tsFix path ++ querySuffix q)
  else if m.RedirectFixedPath then
    match t.FindCaseInsensitivePath (trimDot path) m.RedirectTrailingSlash with
    | some buf => some (code, buf ++ querySuffix q)
    | none => none
  else none

/-- The observable outcome of dispatching one request: which terminal fired,
with the data the claims speak about (handler output, redirect status and
Location value, Allow header contents). -/
inductive Outcome where
  | handled (out : List Nat)
  | redirect (code : Nat) (location : RPath)
  | globalOptions (allow : List String)
  | methodNotAllowed (allow : List String)
  | notFound
deriving DecidableEq

/-- One tree attempt of ServeHTTP (lines 180-203, identical for the exact
method's tree and the wild tree): serve on a match; otherwise, unless the
method is CONNECT or the path is the root, attempt a redirect. -/
def Mux.tryTree (m : Mux) (tOpt : Option RTree) (r : GoReq) : Option Outcome :=
  match tOpt with
  | none => none
  | some t =>
    match t.Get r.path with
    | (some hc, _) => some (.handled (hc.1.run { r with pathValues := hc.2 }))
    | (none, tsr) =>
      if r.method ≠ "CONNECT" ∧ r.path ≠ "/".data then
        (m.tryRedirect t tsr r.method r.path r.rawQuery).map
          (fun pr => Outcome.redirect pr.1 pr.2)
      else none

/-- Mux.ServeHTTP (lines 169-220): exact-method tree, then the wild tree,
then the OPTIONS / method-not-allowed / not-found chain.  The OnPanic
recovery wrapper never fires in this pure embedding and is not modelled. -/
def Mux.ServeHTTP (m : Mux) (r : GoReq) : Outcome :=
  match m.tryTree (m.treeAt r.method) r with
  | some o => o
  | none =>
    match m.tryTree (m.treeAt "*") r with
    | some o => o
    | none =>
      if r.method = "OPTIONS" ∧ (m.GlobalOPTIONS).isSome then
        let allow := m.allowed r.path "OPTIONS"
        if allow ≠ [] then .globalOptions allow else .notFound
      else if (m.OnMethodNotAllowed).isSome then
        let allow := m.allowed r.path r.method
        if allow ≠ [] then .methodNotAllowed allow else .notFound
      else .notFound

/-!
## Merge / mounting (part_003, lines 276-323)

Go's `Merge` on a `*Mux` source copies the destination struct by value
(`m2 := &Mux{}; *m2 = *m`) and registers through the copy: the map fields
(`registeredPaths`, `customMethodsIndex`) and the tree backing array are
shared, so their updates are visible to the destination, while the copy's
own value fields (`mw`, `OnError`, `globalAllowed`) are not.  The pure model
computes the copy's final state and projects the destination's own value
fields back.  (The divergent corner where appending a tree for a brand-new
custom method reallocates the Go slice — leaving the destination with a
dangling index that faults on next use — is not modelled; no claim reaches
it.)  The ledger is iterated in insertion order where Go iterates its map in
unspecified order.
-/

/-- `strings.HasPrefix`. -/
def hasPfx : RPath → RPath → Bool
  | _, [] => true
  | [], _ :: _ => false
  | a :: as, b :: bs => a = b && hasPfx as bs

/-- `strings.TrimPrefix`. -/
def trimPfx (p pre : RPath) : RPath := if hasPfx p pre then p.drop pre.length else p

/-- The argument of Merge: an `http.Handler`, either another `*Mux` or any
other handler value. -/
inductive MergeHandler where
  | mux (src : Mux)
  | handler (s : HttpHandler)

/-- The non-Mux branch of Merge (lines 300-322): requires the mount point to
end in `*`; registers a wild-method route that strips the literal part of
the mount point from the request path before delegating, falling back to
the destination's not-found handler when the strip does not apply
(`r.URL.RawPath` is modelled as always empty). -/
def Mux.mergeOther (m : Mux) (pfx : RPath) (s : HttpHandler) : Except String Mux :=
  if pfx.getLast? ≠ some '*' then .error "non-Mux merges must end with *"
  else
    let noStar := pfx.dropLast
    m.Handle "*" pfx (some (fun r =>
      let p := trimPfx r.path noStar
      if p.length < r.path.length then
        { events := s.run { r with path := p }, err := none }
      else
        { events := m.OnNotFound r, err := none }))

/-- The `*Mux` branch of Merge (lines 278-299): for every ledger entry of
the source, fetch the stored handler via the source tree's `Get` of the
registered pattern; on the Go type switch, an httx `HandlerFunc` would be
re-registered under the prefixed pattern, and anything else — including the
`http.HandlerFunc` closures that `Handle` actually stores — recurses into
`Merge`, i.e. the non-Mux branch. -/
def Mux.mergeMux (m : Mux) (pfx : RPath) (src : Mux) : Except String Mux :=
  let m2 : Mux := { m with mw := m.mw ++ src.mw, OnError := src.OnError }
  let res := src.registeredPaths.foldl
    (fun (acc : Except String Mux) entry =>
      entry.2.foldl
        (fun acc2 path =>
          match acc2 with
          | .error e => .error e
          | .ok cur =>
            match (src.treeAt entry.1).bind (fun t => RTree.lookup t path) with
            | none => .ok cur
            | some hc =>
              let fullPath := if pfx ≠ [] ∧ path = "/".data then pfx else pfx ++ path
              match hc.1 with
              | .hfun f => cur.Handle entry.1 fullPath (some f)
              | .std g => cur.mergeOther fullPath (.std g))
        acc)
    (Except.ok m2)
  match res with
  | .error e => .error e
  | .ok m2f =>
    .ok { m2f with mw := m.mw, OnError := m.OnError, globalAllowed := m.globalAllowed }

/-- Mux.Merge. -/
def Mux.Merge (m : Mux) (pfx : RPath) (h : MergeHandler) : Except String Mux :=
  match h with
  | .mux src => m.mergeMux pfx src
  | .handler s => m.mergeOther pfx s

/-!
## Well-formedness, invariants and fixtures for the claims
-/

/-- States in which every tree index of the router is in range (Go would
fault on lookups otherwise).  Holds for every router built by direct
registration from `NewMux`. -/
abbrev Mux.WF (m : Mux) : Prop :=
  10 ≤ m.trees.length ∧ ∀ p ∈ m.customMethodsIndex, p.2 < m.trees.length

/-- The route ledger of the tree serving a method (empty when no tree). -/
def Mux.treeRoutesAt (m : Mux) (method : String) : Routes :=
  match m.treeAt method with
  | some t => t.routes
  | none => []

/-- The method owning fixed tree slot `i`. -/
def stdName : Nat → String
  | 0 => "GET"
  | 1 => "HEAD"
  | 2 => "POST"
  | 3 => "PUT"
  | 4 => "PATCH"
  | 5 => "DELETE"
  | 6 => "CONNECT"
  | 7 => "OPTIONS"
  | 8 => "TRACE"
  | 9 => "*"
  | _ => ""

/-- Whether a method owns one of the ten fixed tree slots. -/
def standardMethod (s : String) : Bool :=
  decide (s = "GET") || decide (s = "HEAD") || decide (s = "POST") ||
  decide (s = "PUT") || decide (s = "PATCH") || decide (s = "DELETE") ||
  decide (s = "CONNECT") || decide (s = "OPTIONS") || decide (s = "TRACE") ||
  decide (s = "*")

/-- The C6 induction invariant: ten fixed slots, the `globalAllowed` cache
agrees with the ledger, and a fixed slot holds a tree exactly when its
method has a ledger entry. -/
def C6Inv (m : Mux) : Prop :=
  m.trees.length = 10 ∧
  m.globalAllowed = finishAllowed (allowedStarKeys m.registeredPaths) ∧
  ∀ i : Fin 10, ((m.trees.getD i.val none).isSome = true ↔
    stdName i.val ∈ m.registeredPaths.map Prod.fst)

/-- One registration step over `Except`, used to fold a sequence of
`Handle` calls. -/
def regStep (acc : Except String Mux) (reg : String × RPath × HandlerFunc) :
    Except String Mux :=
  match acc with
  | .error e => .error e
  | .ok m => m.Handle reg.1 reg.2.1 (some reg.2.2)

/-- Extract the router from a successful registration (fixtures only). -/
def exceptMux (e : Except String Mux) : Mux :=
  match e with
  | .ok m => m
  | .error _ => NewMux

/-- A handler that writes one event and returns a nil error. -/
def hOk : HandlerFunc := fun _ => { events := [1], err := none }

/-- A handler that writes one event and returns error 3. -/
def hErr : HandlerFunc := fun _ => { events := [7], err := some 3 }

/-- The worked example pattern of §4.1. -/
def bigPattern : RPath := "/show/{name}/{surname?}/at/{address?}/{id}/{phone?:.*}".data

/-- The six concrete patterns §4.1 says the example expands to. -/
def sixPatterns : List RPath :=
  ["/show/{name}".data,
   "/show/{name}/{surname}".data,
   "/show/{name}/{surname}/at".data,
   "/show/{name}/{surname}/at/{address}".data,
   "/show/{name}/{surname}/at/{address}/{id}".data,
   "/show/{name}/{surname}/at/{address}/{id}/{phone:.*}".data]

/-- Fixture: GET `/path` registered on a fresh router. -/
def muxGetPath : Mux := exceptMux (NewMux.Handle "GET" "/path".data (some hOk))

/-- Fixture: a GET request for `/path/` with a query string (trailing-slash
redirect expected). -/
def reqTsr : GoReq :=
  { method := "GET", path := "/path/".data, rawQuery := "key=val".data, pathValues := [] }

/-- Fixture: a CONNECT request for `/path/` (never redirected). -/
def reqConnect : GoReq :=
  { method := "CONNECT", path := "/path/".data, rawQuery := [], pathValues := [] }

/-- Fixture: source router for the Merge claim, with GET `/users/{id}`. -/
def mergeSrc : Mux := exceptMux (NewMux.Handle "GET" "/users/{id}".data (some hOk))

/-- Fixture: POST `/path` registered on a fresh router (allowed-methods
claim). -/
def muxPostPath : Mux := exceptMux (NewMux.Handle "POST" "/path".data (some hOk))

/-- Fixture: GET `/show/{name?}` registered on a fresh router (List claim). -/
def muxOptional : Mux := exceptMux (NewMux.Handle "GET" "/show/{name?}".data (some hOk))

/-- Fixture: a custom-method registration on a fresh router (globalAllowed
cache claim). -/
def muxCustom : Mux := exceptMux (NewMux.Handle "CUSTOM" "/x".data (some hOk))

/-- Fixture: GET `/a` with an error-returning handler (error-sink claim). -/
def muxErr : Mux := exceptMux (NewMux.Handle "GET" "/a".data (some hErr))

/-- Fixture: the §4.1 example pattern registered under GET on a fresh
router. -/
def muxBig : Mux := exceptMux (NewMux.Handle "GET" bigPattern (some hOk))

/-- Fixture: a one-element standard-method registration sequence. -/
def stdRegs : List (String × RPath × HandlerFunc) := [("GET", "/a".data, hOk)]

/-- Fixture: the router obtained by folding `stdRegs` over a fresh router. -/
def muxStdRegs : Mux := exceptMux (stdRegs.foldl regStep (.ok NewMux))

/-!
## Helper lemmas
-/

theorem getDSetSelf {α : Type} (l : List α) (i : Nat) (a d : α) (h : i < l.length) :
    (l.set i a).getD i d = a := by
  induction l generalizing i with
  | nil => simp at h
  | cons x xs ih =>
    cases i with
    | zero => simp
    | succ n =>
      simp only [List.set, List.getD_cons_succ]
      exact ih n (by simpa using h)

theorem getDSetNe {α : Type} (l : List α) (i j : Nat) (a d : α) (h : i ≠ j) :
    (l.set i a).getD j d = l.getD j d := by
  induction l generalizing i j with
  | nil => simp
  | cons x xs ih =>
    cases i with
    | zero =>
      cases j with
      | zero => exact absurd rfl h
      | succ k => simp
    | succ n =>
      cases j with
      | zero => simp
      | succ k =>
        simp only [List.set, List.getD_cons_succ]
        exact ih n k (by omega)

theorem getDAppendSelf {α : Type} (l : List α) (x d : α) :
    (l ++ [x]).getD l.length d = x := by
  induction l with
  | nil => simp
  | cons y ys ih =>
    simp only [List.cons_append, List.length_cons, List.getD_cons_succ]
    exact ih

theorem lengthSet {α : Type} (l : List α) (i : Nat) (a : α) :
    (l.set i a).length = l.length := List.length_set ..

theorem assocFindMem (l : List (String × Nat)) (k : String) (v : Nat)
    (h : assocFind l k = some v) : (k, v) ∈ l := by
  induction l with
  | nil => simp [assocFind] at h
  | cons p rest ih =>
    obtain ⟨a, b⟩ := p
    by_cases hk : a = k
    · subst hk
      simp only [assocFind, if_pos rfl] at h
      injection h with h2
      subst h2
      exact List.mem_cons_self _ _
    · simp only [assocFind, if_neg hk] at h
      exact List.mem_cons_of_mem _ (ih h)

theorem assocFindAppendSelf (l : List (String × Nat)) (k : String) (v : Nat)
    (h : assocFind l k = none) : assocFind (l ++ [(k, v)]) k = some v := by
  induction l with
  | nil => simp [assocFind]
  | cons p rest ih =>
    obtain ⟨a, b⟩ := p
    by_cases hk : a = k
    · simp [assocFind, hk] at h
    · simp only [List.cons_append, assocFind, if_neg hk] at h ⊢
      exact ih h

theorem methodIndexOfCongr (m m2 : Mux) (h : m2.customMethodsIndex = m.customMethodsIndex)
    (me : String) : m2.methodIndexOf me = m.methodIndexOf me := by
  simp only [Mux.methodIndexOf, h]

theorem methodIndexOfCoreAppend (cmi : List (String × Nat)) (method : String) (v : Nat)
    (h : methodIndexOfCore cmi method = none) :
    methodIndexOfCore (cmi ++ [(method, v)]) method = some v := by
  simp only [methodIndexOfCore] at h ⊢
  repeat' split at h
  all_goals simp_all
  exact assocFindAppendSelf _ _ _ h

theorem methodIndexOfLt (m : Mux) (method : String) (idx : Nat) (hwf : m.WF)
    (h : m.methodIndexOf method = some idx) : idx < m.trees.length := by
  obtain ⟨h10, hcmi⟩ := hwf
  simp only [Mux.methodIndexOf, methodIndexOfCore] at h
  repeat' split at h
  all_goals try (injection h with h2; omega)
  exact hcmi _ (assocFindMem _ _ _ h)

theorem addAllRoutes (ps : List RPath) (t : RTree) (h : HttpHandler) :
    (addAll t ps h).routes = t.routes ++ ps.map (fun p => (p, h)) := by
  induction ps generalizing t with
  | nil => simp [addAll]
  | cons p rest ih =>
    show (addAll (t.Add p h) rest h).routes = _
    rw [ih]
    simp [RTree.Add]

theorem HandleLedger (m : Mux) (method : String) (path : RPath) (f : HandlerFunc) (m' : Mux)
    (hok : m.Handle method path (some f) = .ok m') :
    m'.registeredPaths = ledgerAppend m.registeredPaths method path := by
  simp only [Mux.Handle] at hok
  split at hok
  · simp at hok
  · split at hok
    · simp at hok
    · split at hok
      · split at hok
        · injection hok with h2
          subst h2
          rfl
        · injection hok with h2
          subst h2
          rfl
      · injection hok with h2
        subst h2
        rfl

theorem HandleRoutes (m : Mux) (method : String) (path : RPath) (f : HandlerFunc) (m' : Mux)
    (hwf : m.WF) (hok : m.Handle method path (some f) = .ok m') :
    m'.treeRoutesAt method = m.treeRoutesAt method ++ (expandPaths path).map
      (fun p => (p, HttpHandler.std (mkStd (wrapMw m.mw f) m.OnError))) := by
  simp only [Mux.Handle] at hok
  split at hok
  · simp at hok
  · split at hok
    · simp at hok
    · split at hok
      · rename_i idx hmi
        have hlt : idx < m.trees.length := methodIndexOfLt m method idx hwf hmi
        have hmiC : methodIndexOfCore m.customMethodsIndex method = some idx := hmi
        split at hok
        · rename_i t hslot
          injection hok with h2
          subst h2
          simp only [Mux.treeRoutesAt, Mux.treeAt, Mux.methodIndexOf, hmiC]
          simp only [getDSetSelf _ _ _ _ hlt, hslot, addAllRoutes]
        · rename_i hslot
          injection hok with h2
          subst h2
          simp only [Mux.treeRoutesAt, Mux.treeAt, Mux.methodIndexOf, hmiC, hslot]
          have hlt2 : idx < (m.trees.set idx (some (RTree.New m.treeMutable))).length := by
            rw [lengthSet]
            exact hlt
          rw [getDSetSelf _ _ _ _ hlt2]
          simp only [addAllRoutes, RTree.New, List.nil_append]
      · rename_i hmi
        injection hok with h2
        subst h2
        have hmiC : methodIndexOfCore m.customMethodsIndex method = none := hmi
        simp only [Mux.treeRoutesAt, Mux.treeAt, Mux.methodIndexOf, hmiC,
          methodIndexOfCoreAppend _ _ _ hmiC, getDAppendSelf]
        simp only [addAllRoutes, RTree.New]

theorem tryRedirectSpec (m : Mux) (t : RTree) (tsr : Bool) (method : String) (path q : RPath)
    (code : Nat) (loc : RPath)
    (h : m.tryRedirect t tsr method path q = some (code, loc)) :
    code = (if method = "GET" then 301 else 308) ∧
    ∃ base, loc = base ++ querySuffix q ∧
      (base = tsFix path ∨
        t.FindCaseInsensitivePath (trimDot path) m.RedirectTrailingSlash = some base) := by
  simp only [Mux.tryRedirect] at h
  split at h
  · simp only [Option.some.injEq, Prod.mk.injEq] at h
    obtain ⟨hc, hl⟩ := h
    exact ⟨hc.symm, tsFix path, hl.symm, Or.inl rfl⟩
  · split at h
    · split at h
      · rename_i buf hfind
        simp only [Option.some.injEq, Prod.mk.injEq] at h
        obtain ⟨hc, hl⟩ := h
        exact ⟨hc.symm, buf, hl.symm, Or.inr hfind⟩
      · simp at h
    · simp at h

theorem tryTreeSpec (m : Mux) (tOpt : Option RTree) (r : GoReq) (code : Nat) (loc : RPath)
    (h : m.tryTree tOpt r = some (.redirect code loc)) :
    (r.method ≠ "CONNECT" ∧ r.path ≠ "/".data) ∧
    ∃ t tsr, tOpt = some t ∧
      m.tryRedirect t tsr r.method r.path r.rawQuery = some (code, loc) := by
  simp only [Mux.tryTree] at h
  split at h
  · simp at h
  · rename_i t
    split at h
    · simp at h
    · rename_i tsr hGet
      split at h
      · rename_i hcond
        rw [Option.map_eq_some'] at h
        obtain ⟨pr, hpr, hout⟩ := h
        obtain ⟨c2, l2⟩ := pr
        simp only [Outcome.redirect.injEq] at hout
        obtain ⟨hc, hl⟩ := hout
        subst hc
        subst hl
        exact ⟨hcond, t, tsr, rfl, hpr⟩
      · simp at h

theorem ServeHTTPRedirect (m : Mux) (r : GoReq) (code : Nat) (loc : RPath)
    (h : m.ServeHTTP r = .redirect code loc) :
    m.tryTree (m.treeAt r.method) r = some (.redirect code loc) ∨
    m.tryTree (m.treeAt "*") r = some (.redirect code loc) := by
  simp only [Mux.ServeHTTP] at h
  split at h
  · rename_i o h1
    subst h
    exact Or.inl h1
  · split at h
    · rename_i o h2
      subst h
      exact Or.inr h2
    · exfalso
      split at h
      · split at h
        · simp at h
        · simp at h
      · split at h
        · split at h
          · simp at h
          · simp at h
        · simp at h

theorem natListLeTotal : ∀ a b : List Nat, natListLe a b = true ∨ natListLe b a = true := by
  intro a
  induction a with
  | nil => intro b; left; rfl
  | cons x xs ih =>
    intro b
    cases b with
    | nil => right; rfl
    | cons y ys =>
      by_cases hxy : x = y
      · subst hxy
        simp only [natListLe, if_pos rfl]
        exact ih ys
      · rcases Nat.lt_or_ge x y with hlt | hge
        · left
          simp [natListLe, hxy, hlt]
        · right
          have hyx : y < x := by omega
          have hne : y ≠ x := by omega
          simp [natListLe, hne, hyx]

theorem natListLeTrans : ∀ a b c : List Nat,
    natListLe a b = true → natListLe b c = true → natListLe a c = true := by
  intro a
  induction a with
  | nil => intro b c _ _; rfl
  | cons x xs ih =>
    intro b c hab hbc
    cases b with
    | nil => simp [natListLe] at hab
    | cons y ys =>
      cases c with
      | nil => simp [natListLe] at hbc
      | cons z zs =>
        by_cases hxy : x = y <;> by_cases hyz : y = z
        · subst hxy; subst hyz
          simp only [natListLe, if_pos rfl] at hab hbc ⊢
          exact ih ys zs hab hbc
        · subst hxy
          simp only [natListLe, if_pos rfl, if_neg hyz] at hbc ⊢
          exact hbc
        · subst hyz
          simp only [natListLe, if_pos rfl, if_neg hxy] at hab ⊢
          exact hab
        · simp only [natListLe, if_neg hxy, decide_eq_true_eq] at hab
          simp only [natListLe, if_neg hyz, decide_eq_true_eq] at hbc
          have hxz : x < z := by omega
          have hne : x ≠ z := by omega
          simp [natListLe, hne, hxz]

theorem strLeBTotal (a b : String) : strLeB a b = true ∨ strLeB b a = true :=
  natListLeTotal _ _

theorem strLeBTrans (a b c : String) (h1 : strLeB a b = true) (h2 : strLeB b c = true) :
    strLeB a c = true :=
  natListLeTrans _ _ _ h1 h2

theorem sortedSortAllowed (l : List String) :
    List.Sorted (fun a b => strLeB a b = true) (sortAllowed l) :=
  @List.sorted_insertionSort String (fun a b => strLeB a b = true) _
    ⟨fun a b => strLeBTotal a b⟩ ⟨fun a b c => strLeBTrans a b c⟩ l

theorem memSortAllowed (l : List String) (x : String) : x ∈ sortAllowed l ↔ x ∈ l :=
  (List.perm_insertionSort _ l).mem_iff

theorem sortedFinishAllowed (collected : List String) :
    List.Sorted (fun a b => strLeB a b = true) (finishAllowed collected) := by
  unfold finishAllowed
  split
  · exact List.sorted_nil
  · exact sortedSortAllowed _

theorem memFinishAllowed (collected : List String) (x : String) :
    x ∈ finishAllowed collected ↔
      (x ∈ collected ∨ (x = "OPTIONS" ∧ collected ≠ [])) := by
  unfold finishAllowed
  split
  · rename_i hnil
    subst hnil
    simp
  · rename_i hne
    rw [memSortAllowed]
    simp [hne]

theorem ledgerSelfMem (rp : List (String × List RPath)) (me : String) (p : RPath) :
    me ∈ (ledgerAppend rp me p).map Prod.fst := by
  induction rp with
  | nil => simp [ledgerAppend]
  | cons e rest ih =>
    obtain ⟨k, v⟩ := e
    by_cases hk : k = me
    · simp [ledgerAppend, hk]
    · simp only [ledgerAppend, if_neg hk, List.map_cons, List.mem_cons]
      exact Or.inr ih

theorem ledgerKeysMem (rp : List (String × List RPath)) (me : String) (p : RPath)
    (h : me ∈ rp.map Prod.fst) :
    (ledgerAppend rp me p).map Prod.fst = rp.map Prod.fst := by
  induction rp with
  | nil => simp at h
  | cons e rest ih =>
    obtain ⟨k, v⟩ := e
    by_cases hk : k = me
    · simp [ledgerAppend, hk]
    · simp only [List.map_cons, List.mem_cons] at h
      rcases h with h | h
      · exact absurd h.symm hk
      · simp only [ledgerAppend, if_neg hk, List.map_cons, ih h]

theorem ledgerKeysNotMem (rp : List (String × List RPath)) (me : String) (p : RPath)
    (h : me ∉ rp.map Prod.fst) :
    (ledgerAppend rp me p).map Prod.fst = rp.map Prod.fst ++ [me] := by
  induction rp with
  | nil => simp [ledgerAppend]
  | cons e rest ih =>
    obtain ⟨k, v⟩ := e
    simp only [List.map_cons, List.mem_cons] at h
    push_neg at h
    obtain ⟨h1, h2⟩ := h
    have hk : k ≠ me := fun he => h1 he.symm
    simp only [ledgerAppend, if_neg hk, List.map_cons, ih h2, List.cons_append]

theorem HandleSpec (m : Mux) (method : String) (path : RPath) (f : HandlerFunc) (m' : Mux)
    (idx : Nat) (hmi : m.methodIndexOf method = some idx) (hlt : idx < m.trees.length)
    (hok : m.Handle method path (some f) = .ok m') :
    m'.registeredPaths = ledgerAppend m.registeredPaths method path ∧
    m'.customMethodsIndex = m.customMethodsIndex ∧
    m'.trees.length = m.trees.length ∧
    (∀ j, j ≠ idx → m'.trees.getD j none = m.trees.getD j none) ∧
    (m'.trees.getD idx none).isSome = true ∧
    m'.globalAllowed = (match m.trees.getD idx none with
      | some _ => m.globalAllowed
      | none => finishAllowed (allowedStarKeys (ledgerAppend m.registeredPaths method path))) := by
  simp only [Mux.Handle] at hok
  split at hok
  · simp at hok
  · split at hok
    · simp at hok
    · split at hok
      · rename_i idx2 hmi2
        have hidx : idx = idx2 := Option.some.inj (hmi.symm.trans hmi2)
        subst hidx
        split at hok
        · rename_i t hslot
          injection hok with h2
          subst h2
          refine ⟨rfl, rfl, lengthSet _ _ _, ?_, ?_, ?_⟩
          · intro j hj
            exact getDSetNe _ _ _ _ _ (fun he => hj he.symm)
          · rw [getDSetSelf _ _ _ _ hlt]
            rfl
          · rfl
        · rename_i hslot
          injection hok with h2
          subst h2
          have hlt2 : idx < (m.trees.set idx (some (RTree.New m.treeMutable))).length := by
            rw [lengthSet]
            exact hlt
          refine ⟨rfl, rfl, by rw [lengthSet, lengthSet], ?_, ?_, ?_⟩
          · intro j hj
            rw [getDSetNe _ _ _ _ _ (fun he => hj he.symm),
              getDSetNe _ _ _ _ _ (fun he => hj he.symm)]
          · rw [getDSetSelf _ _ _ _ hlt2]
            rfl
          · show Mux.allowed _ "*".data "" = _
            simp [Mux.allowed]
      · rename_i hmi2
        rw [hmi] at hmi2
        simp at hmi2

theorem standardMethodCases (s : String) (h : standardMethod s = true) :
    s = "GET" ∨ s = "HEAD" ∨ s = "POST" ∨ s = "PUT" ∨ s = "PATCH" ∨ s = "DELETE" ∨
    s = "CONNECT" ∨ s = "OPTIONS" ∨ s = "TRACE" ∨ s = "*" := by
  simp only [standardMethod, Bool.or_eq_true, decide_eq_true_eq] at h
  tauto

theorem allowedStarCached (m : Mux) (reqMethod : String) (h : reqMethod ≠ "") :
    m.allowed "*".data reqMethod = m.globalAllowed := by
  simp [Mux.allowed, h]

theorem C6Step (m m' : Mux) (method : String) (path : RPath) (f : HandlerFunc)
    (idx : Nat) (hidx : idx < 10)
    (hname : stdName idx = method)
    (hinj : ∀ j : Fin 10, stdName j.val = method → j.val = idx)
    (hmi : m.methodIndexOf method = some idx)
    (hinv : C6Inv m)
    (hok : m.Handle method path (some f) = .ok m') : C6Inv m' := by
  obtain ⟨hlen, hga, hslots⟩ := hinv
  obtain ⟨hrp, hcmi, hlen2, hother, hsome, hga2⟩ :=
    HandleSpec m method path f m' idx hmi (by omega) hok
  refine ⟨by omega, ?_, ?_⟩
  · rcases hslot : m.trees.getD idx none with _ | t
    · rw [hga2, hslot, hrp]
    · rw [hga2, hslot]
      have hmem : method ∈ m.registeredPaths.map Prod.fst := by
        rw [← hname]
        exact (hslots ⟨idx, hidx⟩).mp (by rw [hslot]; rfl)
      rw [hga, hrp]
      unfold allowedStarKeys
      rw [ledgerKeysMem _ _ _ hmem]
  · intro i
    by_cases hij : i.val = idx
    · have hsome2 : (m'.trees.getD i.val none).isSome = true := by rw [hij]; exact hsome
      have hmem2 : stdName i.val ∈ m'.registeredPaths.map Prod.fst := by
        rw [hij, hname, hrp]
        exact ledgerSelfMem _ _ _
      exact iff_of_true hsome2 hmem2
    · rw [hother i.val hij]
      have hne : stdName i.val ≠ method := fun he => hij (hinj i he)
      have hkeys : stdName i.val ∈ m'.registeredPaths.map Prod.fst ↔
          stdName i.val ∈ m.registeredPaths.map Prod.fst := by
        rw [hrp]
        by_cases hmem : method ∈ m.registeredPaths.map Prod.fst
        · rw [ledgerKeysMem _ _ _ hmem]
        · rw [ledgerKeysNotMem _ _ _ hmem]
          simp [hne]
      rw [hkeys]
      exact hslots i

theorem C6Pres (m m1 : Mux) (method : String) (path : RPath) (f : HandlerFunc)
    (hstd : standardMethod method = true) (hinv : C6Inv m)
    (hok : m.Handle method path (some f) = .ok m1) : C6Inv m1 := by
  rcases standardMethodCases method hstd with h | h | h | h | h | h | h | h | h | h
  · subst h; exact C6Step m m1 "GET" path f 0 (by omega) rfl (by decide) rfl hinv hok
  · subst h; exact C6Step m m1 "HEAD" path f 1 (by omega) rfl (by decide) rfl hinv hok
  · subst h; exact C6Step m m1 "POST" path f 2 (by omega) rfl (by decide) rfl hinv hok
  · subst h; exact C6Step m m1 "PUT" path f 3 (by omega) rfl (by decide) rfl hinv hok
  · subst h; exact C6Step m m1 "PATCH" path f 4 (by omega) rfl (by decide) rfl hinv hok
  · subst h; exact C6Step m m1 "DELETE" path f 5 (by omega) rfl (by decide) rfl hinv hok
  · subst h; exact C6Step m m1 "CONNECT" path f 6 (by omega) rfl (by decide) rfl hinv hok
  · subst h; exact C6Step m m1 "OPTIONS" path f 7 (by omega) rfl (by decide) rfl hinv hok
  · subst h; exact C6Step m m1 "TRACE" path f 8 (by omega) rfl (by decide) rfl hinv hok
  · subst h; exact C6Step m m1 "*" path f 9 (by omega) rfl (by decide) rfl hinv hok

theorem foldErrorAbsorb (l : List (String × RPath × HandlerFunc)) (e : String) :
    l.foldl regStep (.error e) = .error e := by
  induction l with
  | nil => rfl
  | cons reg rest ih => exact ih

theorem regFoldInv (regs : List (String × RPath × HandlerFunc)) :
    ∀ (m m' : Mux), C6Inv m → (∀ reg ∈ regs, standardMethod reg.1 = true) →
    regs.foldl regStep (.ok m) = .ok m' → C6Inv m' := by
  induction regs with
  | nil =>
    intro m m' hinv _ hok
    simp only [List.foldl] at hok
    injection hok with h2
    rwa [← h2]
  | cons reg rest ih =>
    intro m m' hinv hstd hok
    simp only [List.foldl] at hok
    rcases hH : m.Handle reg.1 reg.2.1 (some reg.2.2) with e | m1
    · rw [show regStep (Except.ok m) reg = .error e from by simp [regStep, hH]] at hok
      rw [foldErrorAbsorb] at hok
      simp at hok
    · rw [show regStep (Except.ok m) reg = .ok m1 from by simp [regStep, hH]] at hok
      exact ih m1 m'
        (C6Pres m m1 reg.1 reg.2.1 reg.2.2 (hstd reg (List.mem_cons_self _ _)) hinv hH)
        (fun r hr => hstd r (List.mem_cons_of_mem _ hr)) hok

theorem C6InvNewMux : C6Inv NewMux := by
  refine ⟨rfl, rfl, ?_⟩
  decide

/-!
## Claim theorems
-/

/-- C1: registering the pattern
`/show/{name}/{surname?}/at/{address?}/{id}/{phone?:.*}` under any method
expands to exactly the six concrete patterns of §4.1 — `getOptionalPaths`
yields exactly that six-element sequence, and `Handle` inserts each of them
into the method's tree with the same stored handler (the given handler
wrapped by the registration-time middleware and error sink). -/
theorem claim1_optional_expansion (m : Mux) (method : String) (f : HandlerFunc) (m' : Mux)
    (hwf : m.WF) (hok : m.Handle method bigPattern (some f) = .ok m') :
    getOptionalPaths bigPattern = sixPatterns ∧
    m'.treeRoutesAt method = m.treeRoutesAt method ++ sixPatterns.map
      (fun p => (p, HttpHandler.std (mkStd (wrapMw m.mw f) m.OnError))) := by
  have hexp : expandPaths bigPattern = sixPatterns := by decide
  refine ⟨by decide, ?_⟩
  rw [HandleRoutes m method bigPattern f m' hwf hok, hexp]

/-- Witness for C1: the expansion and insertion at a concrete registration
of the example pattern under GET on a fresh router. -/
theorem claim1_witness :
    getOptionalPaths bigPattern = sixPatterns ∧
    muxBig.treeRoutesAt "GET" = NewMux.treeRoutesAt "GET" ++ sixPatterns.map
      (fun p => (p, HttpHandler.std (mkStd (wrapMw NewMux.mw hOk) NewMux.OnError))) :=
  claim1_optional_expansion NewMux "GET" hOk muxBig (by decide) rfl

/-- C2: whenever dispatch issues a redirect, its status code is 301 exactly
when the request method is GET and 308 for every other method; and a request
whose method is CONNECT or whose path is the root never redirects — a failed
lookup proceeds to the allowed-methods / not-found chain. -/
theorem claim2_redirect_codes (m : Mux) (r : GoReq) :
    (∀ code loc, m.ServeHTTP r = .redirect code loc →
      ((code = 301 ↔ r.method = "GET") ∧ (r.method ≠ "GET" → code = 308))) ∧
    ((r.method = "CONNECT" ∨ r.path = "/".data) →
      ∀ code loc, m.ServeHTTP r ≠ .redirect code loc) := by
  constructor
  · intro code loc h
    rcases ServeHTTPRedirect m r code loc h with h2 | h2 <;>
    · obtain ⟨hguard, t, tsr, htree, hred⟩ := tryTreeSpec m _ r code loc h2
      obtain ⟨hcode, _⟩ := tryRedirectSpec m t tsr r.method r.path r.rawQuery code loc hred
      subst hcode
      by_cases hm : r.method = "GET"
      · simp [hm]
      · simp [hm]
  · intro hcr code loc h
    rcases ServeHTTPRedirect m r code loc h with h2 | h2 <;>
    · obtain ⟨⟨hc1, hc2⟩, _⟩ := tryTreeSpec m _ r code loc h2
      rcases hcr with hcr | hcr
      · exact hc1 hcr
      · exact hc2 hcr

/-- Witness for C2: a concrete GET trailing-slash redirect carries code 301,
and a concrete CONNECT request is never answered with a redirect. -/
theorem claim2_witness :
    ((301 = 301 ↔ reqTsr.method = "GET") ∧ (reqTsr.method ≠ "GET" → 301 = 308)) ∧
    muxGetPath.ServeHTTP reqConnect ≠ .redirect 308 "/path".data :=
  ⟨(claim2_redirect_codes muxGetPath reqTsr).1 301 ("/path?key=val".data) (by decide),
   (claim2_redirect_codes muxGetPath reqConnect).2 (Or.inl rfl) 308 "/path".data⟩

/-- C3 (code bug): `Merge` of a sub-router can never re-register the
source's routes.  `Handle` stores `http.HandlerFunc` closures, so Merge's
type switch `case HandlerFunc` (the httx function type) never matches; every
fetched handler falls into the recursive opaque-mount branch, which panics
because the prefixed pattern does not end in `*`.  Evaluated at the failing
input: a source router with GET `/users/{id}` mounted under `/v1`. -/
theorem claim3_merge_panics :
    NewMux.Handle "GET" "/users/{id}".data (some hOk) = .ok mergeSrc ∧
    NewMux.Merge "/v1".data (.mux mergeSrc) = .error "non-Mux merges must end with *" :=
  ⟨rfl, rfl⟩

/-- C4: for any queried path other than the server-wide queries `*` and
`/*`, and any requested method, the allowed list contains exactly the
registered methods other than the requested method and OPTIONS whose tree
yields a handler at the exact path (no redirect fallback), with OPTIONS
appended exactly when that set is non-empty, and the list is sorted in
byte-wise lexicographic order. -/
theorem claim4_allowed_methods (m : Mux) (path : RPath) (reqMethod : String)
    (h1 : path ≠ "*".data) (h2 : path ≠ "/*".data) :
    List.Sorted (fun a b => strLeB a b = true) (m.allowed path reqMethod) ∧
    ∀ x, x ∈ m.allowed path reqMethod ↔
      ((x ∈ m.registeredPaths.map Prod.fst ∧ x ≠ reqMethod ∧ x ≠ "OPTIONS" ∧
          m.probe x path = true) ∨
        (x = "OPTIONS" ∧ ∃ y ∈ m.registeredPaths.map Prod.fst,
          y ≠ reqMethod ∧ y ≠ "OPTIONS" ∧ m.probe y path = true)) := by
  have hcond : ¬(path = "*".data ∨ path = "/*".data) := by tauto
  have hfilter : ∀ z, z ∈ (m.registeredPaths.map Prod.fst).filter
      (fun me => decide (me ≠ reqMethod) && decide (me ≠ "OPTIONS") && m.probe me path) ↔
      (z ∈ m.registeredPaths.map Prod.fst ∧ z ≠ reqMethod ∧ z ≠ "OPTIONS" ∧
        m.probe z path = true) := by
    intro z
    rw [List.mem_filter]
    simp only [Bool.and_eq_true, decide_eq_true_eq]
    tauto
  constructor
  · unfold Mux.allowed
    rw [if_neg hcond]
    exact sortedFinishAllowed _
  · intro x
    unfold Mux.allowed
    rw [if_neg hcond, memFinishAllowed, hfilter x]
    have hne : ((m.registeredPaths.map Prod.fst).filter
        (fun me => decide (me ≠ reqMethod) && decide (me ≠ "OPTIONS") && m.probe me path)
          ≠ []) ↔
        (∃ y ∈ m.registeredPaths.map Prod.fst,
          y ≠ reqMethod ∧ y ≠ "OPTIONS" ∧ m.probe y path = true) := by
      constructor
      · intro hne2
        obtain ⟨z, hz⟩ := List.exists_mem_of_ne_nil _ hne2
        obtain ⟨hz1, hz2⟩ := (hfilter z).mp hz
        exact ⟨z, hz1, hz2⟩
      · rintro ⟨y, hy1, hy2⟩ hnil
        have hmem := (hfilter y).mpr ⟨hy1, hy2⟩
        rw [hnil] at hmem
        simp at hmem
    rw [hne]

/-- Witness for C4: the allowed list for `/path` under requested method GET
on a router with only POST `/path` registered is the sorted
`[OPTIONS, POST]`, with the membership characterization at POST. -/
theorem claim4_witness :
    List.Sorted (fun a b => strLeB a b = true) (muxPostPath.allowed "/path".data "GET") ∧
    ("POST" ∈ muxPostPath.allowed "/path".data "GET" ↔
      (("POST" ∈ muxPostPath.registeredPaths.map Prod.fst ∧ "POST" ≠ "GET" ∧
          "POST" ≠ "OPTIONS" ∧ muxPostPath.probe "POST" "/path".data = true) ∨
        ("POST" = "OPTIONS" ∧ ∃ y ∈ muxPostPath.registeredPaths.map Prod.fst,
          y ≠ "GET" ∧ y ≠ "OPTIONS" ∧ muxPostPath.probe y "/path".data = true))) :=
  ⟨(claim4_allowed_methods muxPostPath "/path".data "GET" (by decide) (by decide)).1,
   (claim4_allowed_methods muxPostPath "/path".data "GET" (by decide) (by decide)).2 "POST"⟩

/-- C5 counterexample: the claim says `List()` returns the registered
patterns post-expansion with optional markers resolved away; in fact
registering GET `/show/{name?}` lists exactly the original pattern — which
still contains the `?` optional marker and is not one of its two expanded
concrete patterns. -/
theorem claim5_counterexample :
    muxOptional.List = [("GET", ["/show/{name?}".data])] ∧
    '?' ∈ "/show/{name?}".data ∧
    getOptionalPaths "/show/{name?}".data = ["/show".data, "/show/{name}".data] ∧
    "/show/{name?}".data ∉ getOptionalPaths "/show/{name?}".data := by
  exact ⟨by decide, by decide, by decide, by decide⟩

/-- C5 amended: `List()` returns, per method, the ordered sequence of
original registration patterns exactly as passed to `Handle` —
pre-expansion, optional markers preserved. -/
theorem claim5_list_original_patterns (m : Mux) (method : String) (path : RPath)
    (f : HandlerFunc) (m' : Mux) (hok : m.Handle method path (some f) = .ok m') :
    m'.List = ledgerAppend m.registeredPaths method path :=
  HandleLedger m method path f m' hok

/-- Witness for C5 (amended): the concrete optional-parameter registration
appends its original pattern to the ledger returned by `List()`. -/
theorem claim5_witness :
    muxOptional.List = ledgerAppend NewMux.registeredPaths "GET" "/show/{name?}".data :=
  claim5_list_original_patterns NewMux "GET" "/show/{name?}".data hOk muxOptional rfl

/-- C6 counterexample: the claim says the cached server-wide allowed list
stays equal to the derived set after every registration sequence including
custom methods; registering the custom method CUSTOM on a fresh router
leaves the cache empty (the custom-method branch of `Handle` appends a
non-nil tree and so never refreshes `globalAllowed`), while the derived
sorted set is `[CUSTOM, OPTIONS]`. -/
theorem claim6_counterexample :
    muxCustom.allowed "*".data "GET" = [] ∧
    finishAllowed (allowedStarKeys muxCustom.registeredPaths) = ["CUSTOM", "OPTIONS"] ∧
    muxCustom.allowed "*".data "GET" ≠
      finishAllowed (allowedStarKeys muxCustom.registeredPaths) := by
  exact ⟨by decide, by decide, by decide⟩

/-- C6 amended: after every sequence of successful direct registrations of
standard-slot methods (the nine standard HTTP methods and the wild method)
on a fresh router, the cached server-wide allowed list — returned for the
query `*` with any non-empty requested method — equals the set of all
registered methods, OPTIONS excluded from iteration but appended when the
set is non-empty, sorted lexicographically.  (First registrations of custom
methods, and registrations routed through Merge, do not refresh the
destination's cache — see the counterexample.) -/
theorem claim6_global_allowed_cache (regs : List (String × RPath × HandlerFunc)) (m' : Mux)
    (hstd : ∀ reg ∈ regs, standardMethod reg.1 = true)
    (hok : regs.foldl regStep (.ok NewMux) = .ok m') :
    m'.globalAllowed = finishAllowed (allowedStarKeys m'.registeredPaths) ∧
    ∀ reqMethod, reqMethod ≠ "" →
      m'.allowed "*".data reqMethod = finishAllowed (allowedStarKeys m'.registeredPaths) := by
  obtain ⟨_, hga, _⟩ := regFoldInv regs NewMux m' C6InvNewMux hstd hok
  exact ⟨hga, fun reqMethod hne => by rw [allowedStarCached m' reqMethod hne, hga]⟩

/-- Witness for C6 (amended): the invariant at a concrete one-step
standard-method registration sequence. -/
theorem claim6_witness :
    muxStdRegs.globalAllowed = finishAllowed (allowedStarKeys muxStdRegs.registeredPaths) ∧
    muxStdRegs.allowed "*".data "POST" =
      finishAllowed (allowedStarKeys muxStdRegs.registeredPaths) :=
  ⟨(claim6_global_allowed_cache stdRegs muxStdRegs (by decide) rfl).1,
   (claim6_global_allowed_cache stdRegs muxStdRegs (by decide) rfl).2 "POST" (by decide)⟩

/-- C7: every redirect issued by dispatch carries a Location value equal to
a corrected path followed by the original query string unchanged (`?` plus
the raw query when one is present): the corrected path is either the
trailing-slash correction of the request path or the case-corrected path
found by the case-insensitive lookup of one of the consulted trees. -/
theorem claim7_redirect_location (m : Mux) (r : GoReq) (code : Nat) (loc : RPath)
    (h : m.ServeHTTP r = .redirect code loc) :
    ∃ base, loc = base ++ querySuffix r.rawQuery ∧
      (base = tsFix r.path ∨
        ∃ t, (m.treeAt r.method = some t ∨ m.treeAt "*" = some t) ∧
          t.FindCaseInsensitivePath (trimDot r.path) m.RedirectTrailingSlash = some base) := by
  rcases ServeHTTPRedirect m r code loc h with h2 | h2
  · obtain ⟨_, t, tsr, htree, hred⟩ := tryTreeSpec m _ r code loc h2
    obtain ⟨_, base, hloc, hbase⟩ :=
      tryRedirectSpec m t tsr r.method r.path r.rawQuery code loc hred
    refine ⟨base, hloc, ?_⟩
    rcases hbase with hb | hb
    · exact Or.inl hb
    · exact Or.inr ⟨t, Or.inl htree, hb⟩
  · obtain ⟨_, t, tsr, htree, hred⟩ := tryTreeSpec m _ r code loc h2
    obtain ⟨_, base, hloc, hbase⟩ :=
      tryRedirectSpec m t tsr r.method r.path r.rawQuery code loc hred
    refine ⟨base, hloc, ?_⟩
    rcases hbase with hb | hb
    · exact Or.inl hb
    · exact Or.inr ⟨t, Or.inr htree, hb⟩

/-- Witness for C7: the concrete trailing-slash redirect of `/path/?key=val`
to `/path?key=val` decomposes as corrected path plus unchanged query. -/
theorem claim7_witness :
    ∃ base, ("/path?key=val".data : RPath) = base ++ querySuffix reqTsr.rawQuery ∧
      (base = tsFix reqTsr.path ∨
        ∃ t, (muxGetPath.treeAt reqTsr.method = some t ∨ muxGetPath.treeAt "*" = some t) ∧
          t.FindCaseInsensitivePath (trimDot reqTsr.path) muxGetPath.RedirectTrailingSlash =
            some base) :=
  claim7_redirect_location muxGetPath reqTsr 301 "/path?key=val".data (by decide)

/-- C8: registration fails (panics, modelled as `Except.error`, returning no
updated router state) whenever the method is empty, the handler is nil, the
pattern is empty, or the pattern does not begin with `/`. -/
theorem claim8_registration_validation (m : Mux) (method : String) (path : RPath)
    (handler : Option HandlerFunc)
    (hbad : method = "" ∨ handler = none ∨ path = [] ∨ path.head? ≠ some '/') :
    ∃ msg, m.Handle method path handler = .error msg := by
  unfold Mux.Handle
  by_cases hm : method = ""
  · exact ⟨_, by rw [if_pos hm]⟩
  · rw [if_neg hm]
    rcases handler with _ | f
    · exact ⟨"handler must not be nil", rfl⟩
    · rcases hbad with h | h | h | h
      · exact absurd h hm
      · simp at h
      · exact ⟨"path must begin with root", by simp [h]⟩
      · exact ⟨"path must begin with root", by simp [h]⟩

/-- Witness for C8: registering with an empty method on a fresh router
fails. -/
theorem claim8_witness :
    ∃ msg, NewMux.Handle "" "/".data (some hOk) = .error msg :=
  claim8_registration_validation NewMux "" "/".data (some hOk) (Or.inl rfl)

/-- C9: the middleware composition of a route is captured at registration
time — `Handle` stores the given handler wrapped by exactly the middleware
present on the router at that moment — and middleware added via `Pre`
afterwards changes neither the stored trees nor the dispatch behavior of
any already-registered route. -/
theorem claim9_middleware_capture (m : Mux) (method : String) (path : RPath)
    (f : HandlerFunc) (m' : Mux) (hwf : m.WF)
    (hok : m.Handle method path (some f) = .ok m') :
    m'.treeRoutesAt method = m.treeRoutesAt method ++ (expandPaths path).map
      (fun p => (p, HttpHandler.std (mkStd (wrapMw m.mw f) m.OnError))) ∧
    (∀ mws, (m'.Pre mws).trees = m'.trees) ∧
    (∀ mws r, (m'.Pre mws).ServeHTTP r = m'.ServeHTTP r) :=
  ⟨HandleRoutes m method path f m' hwf hok, fun _ => rfl, fun _ _ => rfl⟩

/-- Witness for C9: concrete registration of GET `/path` on a fresh router,
with a later `Pre` leaving trees and a concrete dispatch unchanged. -/
theorem claim9_witness :
    (muxGetPath.treeRoutesAt "GET" = NewMux.treeRoutesAt "GET" ++
      (expandPaths "/path".data).map
        (fun p => (p, HttpHandler.std (mkStd (wrapMw NewMux.mw hOk) NewMux.OnError)))) ∧
    (muxGetPath.Pre [fun h => h]).trees = muxGetPath.trees ∧
    (muxGetPath.Pre [fun h => h]).ServeHTTP reqTsr = muxGetPath.ServeHTTP reqTsr := by
  obtain ⟨h1, h2, h3⟩ :=
    claim9_middleware_capture NewMux "GET" "/path".data hOk muxGetPath (by decide) rfl
  exact ⟨h1, h2 [fun h => h], h3 [fun h => h] reqTsr⟩

/-- C10: the error sink of a route is captured at registration time — the
stored handler routes a non-nil handler error to the `OnError` present on
the router at the moment of registration, writes nothing extra when the
error is nil, and reassigning `OnError` afterwards does not change the
dispatch behavior of already-registered routes. -/
theorem claim10_error_sink_capture (m : Mux) (method : String) (path : RPath)
    (f : HandlerFunc) (m' : Mux) (hwf : m.WF)
    (hok : m.Handle method path (some f) = .ok m') :
    m'.treeRoutesAt method = m.treeRoutesAt method ++ (expandPaths path).map
      (fun p => (p, HttpHandler.std (mkStd (wrapMw m.mw f) m.OnError))) ∧
    (∀ r e, (wrapMw m.mw f r).err = some e →
      mkStd (wrapMw m.mw f) m.OnError r = (wrapMw m.mw f r).events ++ m.OnError r e) ∧
    (∀ r, (wrapMw m.mw f r).err = none →
      mkStd (wrapMw m.mw f) m.OnError r = (wrapMw m.mw f r).events) ∧
    (∀ sink r, Mux.ServeHTTP { m' with OnError := sink } r = m'.ServeHTTP r) := by
  refine ⟨HandleRoutes m method path f m' hwf hok, ?_, ?_, fun _ _ => rfl⟩
  · intro r e he
    simp [mkStd, he]
  · intro r he
    simp [mkStd, he]

/-- Witness for C10: concrete registration of GET `/a` with a handler
returning error 3 on a fresh router; its stored handler appends the output
of the registration-time `DefaultErrorHandler`, and reassigning the sink
afterwards leaves a concrete dispatch unchanged. -/
theorem claim10_witness :
    (muxErr.treeRoutesAt "GET" = NewMux.treeRoutesAt "GET" ++
      (expandPaths "/a".data).map
        (fun p => (p, HttpHandler.std (mkStd (wrapMw NewMux.mw hErr) NewMux.OnError)))) ∧
    mkStd (wrapMw NewMux.mw hErr) NewMux.OnError reqTsr =
      (wrapMw NewMux.mw hErr reqTsr).events ++ NewMux.OnError reqTsr 3 ∧
    Mux.ServeHTTP { muxErr with OnError := fun _ _ => [] } reqTsr =
      muxErr.ServeHTTP reqTsr := by
  obtain ⟨h1, h2, h3, h4⟩ :=
    claim10_error_sink_capture NewMux "GET" "/a".data hErr muxErr (by decide) rfl
  exact ⟨h1, h2 reqTsr 3 rfl, h4 (fun _ _ => []) reqTsr⟩

/-!
Cross-checks of the `getOptionalPaths` embedding against the remaining
vectors of the repository's own TestGetOptionalPath table.
-/

theorem goptNoParams : getOptionalPaths "/hello".data = [] := by decide

theorem goptMandatoryParam : getOptionalPaths "/{name}".data = [] := by decide

theorem goptRootOptionalRegex :
    getOptionalPaths "/{name?:[a-zA-Z]{5}}".data =
      ["/".data, "/{name:[a-zA-Z]{5}}".data] := by decide

theorem goptRegexQuestionMark :
    getOptionalPaths "/{filepath:^(?!api).*}".data = [] := by decide

theorem goptStaticOptionalRegex :
    getOptionalPaths "/static/{filepath?:^(?!api).*}".data =
      ["/static".data, "/static/{filepath:^(?!api).*}".data] := by decide

theorem goptSimpleOptional :
    getOptionalPaths "/show/{name?}".data = ["/show".data, "/show/{name}".data] := by decide
